import Mathlib

/-!
Shallow embedding of the UCD text parser (`src/src/lib.rs`).

Strings are modelled as `List Char`.  The pipeline is:
`UCDLines` filters the raw lines, keeping those whose content, after
trimming leading whitespace, is non-empty and does not begin with the
comment marker; `UCDLine.intoIter` strips the suffix starting at the
first comment marker and splits the remainder on the field delimiter;
`UCDLineIter.next` pops the next piece, trims it, and returns nothing
when the trimmed piece is empty.
-/

namespace ParseUCD

/-- The Unicode White_Space test used by Rust `char::is_whitespace`. -/
def isWS (c : Char) : Bool :=
  let n := c.toNat
  (decide (9 ≤ n) && decide (n ≤ 13)) || n == 32 || n == 133 || n == 160 ||
  n == 5760 || (decide (8192 ≤ n) && decide (n ≤ 8202)) || n == 8232 ||
  n == 8233 || n == 8239 || n == 8287 || n == 12288

/-- Rust `str::trim_start`: drop leading whitespace. -/
def trimStart (l : List Char) : List Char := l.dropWhile isWS

/-- Drop trailing whitespace. -/
def trimEnd (l : List Char) : List Char := (l.reverse.dropWhile isWS).reverse

/-- Rust `str::trim`: drop leading and trailing whitespace. -/
def trim (l : List Char) : List Char := trimEnd (trimStart l)

/-- Rust `str::split(c)`: pieces between occurrences of `c`, keeping
empty pieces; the split of the empty string is one empty piece. -/
def splitOn (c : Char) : List Char → List (List Char)
  | [] => [[]]
  | x :: xs =>
    if x = c then [] :: splitOn c xs
    else
      match splitOn c xs with
      | [] => [[x]]
      | p :: ps => (x :: p) :: ps

/-- Strip one trailing carriage return, as Rust `str::lines` does on a
piece that was terminated by a newline. -/
def stripCR (l : List Char) : List Char :=
  match l.getLast? with
  | some c => if c = '\r' then l.dropLast else l
  | none => l

/-- Rust `str::lines`: split on the newline, strip a trailing carriage
return of each newline-terminated piece, and drop the final piece when
it is empty (i.e. when the text ends with a newline, or is empty). -/
def strLines (t : List Char) : List (List Char) :=
  let ps := splitOn '\n' t
  ps.dropLast.map stripCR ++
    (if ps.getLastD [] = [] then [] else [ps.getLastD []])

/-- The keep/skip decision of `UCDLines::next`: the Rust code skips a
line when `line.trim_start().chars().next()` is `Some('#')` or `None`,
and keeps it otherwise. -/
def keepLine (l : List Char) : Bool :=
  match trimStart l with
  | [] => false
  | c :: _ => c != '#'

/-- One call to `next` of `impl Iterator for UCDLines<std::str::Lines>`:
loop over the remaining raw lines until one is kept (returned together
with the remaining lines) or the source is exhausted. -/
def UCDLines.next : List (List Char) → Option (List Char × List (List Char))
  | [] => none
  | l :: ls => if keepLine l then some (l, ls) else UCDLines.next ls

/-- All lines produced by driving `UCDLines::next` to exhaustion
(string-slice form). -/
def ucdLinesAll : List (List Char) → List (List Char)
  | [] => []
  | l :: ls => if keepLine l then l :: ucdLinesAll ls else ucdLinesAll ls

/-- The full string-slice line pipeline: `UCD::new(text).ucd_lines()`
driven to exhaustion. -/
def ucdLinesOfText (t : List Char) : List (List Char) :=
  ucdLinesAll (strLines t)

/-- One call to `next` of `impl Iterator for UCDLines<io::Lines>`: the
underlying source yields `io::Result` items; an `Err` is returned at
once, an `Ok` line is kept or skipped exactly as in the infallible
form.  The error payload is modelled as a `Nat` token. -/
def UCDLinesFallible.next :
    List (Except Nat (List Char)) →
      Option (Except Nat (List Char) × List (Except Nat (List Char)))
  | [] => none
  | Except.error e :: ls => some (Except.error e, ls)
  | Except.ok l :: ls =>
    if keepLine l then some (Except.ok l, ls) else UCDLinesFallible.next ls

/-- All items produced by driving the fallible `UCDLines::next` to
exhaustion. -/
def ucdLinesFallibleAll : List (Except Nat (List Char)) → List (Except Nat (List Char))
  | [] => []
  | Except.error e :: ls => Except.error e :: ucdLinesFallibleAll ls
  | Except.ok l :: ls =>
    if keepLine l then Except.ok l :: ucdLinesFallibleAll ls else ucdLinesFallibleAll ls

/-- `self.0.split('#').next()` — the first piece of the comment split,
before the `unwrap`. -/
def beforeCommentOpt (l : List Char) : Option (List Char) :=
  (splitOn '#' l).head?

/-- `impl IntoIterator for UCDLine<&str>`:
`self.0.split('#').next().unwrap().split(';')` — the split pieces over
which `UCDLineIter` runs (borrowed-slice form). -/
def UCDLine.intoIterBorrowed (l : List Char) : List (List Char) :=
  splitOn ';' ((splitOn '#' l).headI)

/-- `impl IntoIterator for &UCDLine<String>`: the identical expression
`self.0.split('#').next().unwrap().split(';')` (owned-string form). -/
def UCDLine.intoIterOwned (l : List Char) : List (List Char) :=
  splitOn ';' ((splitOn '#' l).headI)

/-- One call to `next` of `impl Iterator for UCDLineIter`: pop the next
split piece (advancing the underlying split even when the result is
nothing), trim it, and return nothing when the trimmed piece is empty.
The returned list is the state of the underlying split afterwards. -/
def UCDLineIter.next : List (List Char) → Option (List Char) × List (List Char)
  | [] => (none, [])
  | p :: ps =>
    let s := trim p
    if s = [] then (none, ps) else (some s, ps)

/-- Driving `UCDLineIter::next` the way `collect` / a `for` loop does:
repeatedly call `next` and stop at the first `None`. -/
def collectFields : List (List Char) → List (List Char)
  | [] => []
  | p :: ps =>
    let s := trim p
    if s = [] then [] else s :: collectFields ps

/-- The field list of one significant line, as collected in the crate's
doc-test: `line.into_iter().collect()`. -/
def fieldsOf (l : List Char) : List (List Char) :=
  collectFields (UCDLine.intoIterBorrowed l)

/-- The field pipeline with the `unwrap` kept explicit: `none` exactly
when `split('#').next()` would return `None` and the `unwrap` panic. -/
def fieldsOfOpt (l : List Char) : Option (List (List Char)) :=
  (beforeCommentOpt l).map fun t => collectFields (splitOn ';' t)

/-- Put the kept lines (`ys`) and the skipped lines (`ss`) back in their
original positions, as recorded by the keep/skip flags. -/
def recombine : List Bool → List (List Char) → List (List Char) → List (List Char)
  | [], _, _ => []
  | true :: fs, y :: ys, ss => y :: recombine fs ys ss
  | true :: _, [], _ => []
  | false :: fs, ys, s :: ss => s :: recombine fs ys ss
  | false :: _, _, [] => []

/-- An item of the fallible source that the line filter passes over
silently: an `Ok` line that the keep/skip test skips. -/
def skippedOK : Except Nat (List Char) → Bool
  | Except.ok l => !keepLine l
  | Except.error _ => false

end ParseUCD

namespace ParseUCD

/-! ### Helper lemmas -/

theorem dropWhile_suffix_decomp (p : Char → Bool) (l : List Char) :
    ∃ s, l = s ++ l.dropWhile p := by
  induction l with
  | nil => exact ⟨[], rfl⟩
  | cons x xs ih =>
    by_cases h : p x
    · obtain ⟨s, hs⟩ := ih
      exact ⟨x :: s, by simp [List.dropWhile_cons, h, ← hs]⟩
    · exact ⟨[], by simp [List.dropWhile_cons, h]⟩

theorem dropWhile_idem (p : Char → Bool) (l : List Char) :
    (l.dropWhile p).dropWhile p = l.dropWhile p := by
  induction l with
  | nil => rfl
  | cons x xs ih =>
    by_cases h : p x
    · simp [List.dropWhile_cons, h, ih]
    · simp [List.dropWhile_cons, h]

theorem dropWhile_length_le (p : Char → Bool) (l : List Char) :
    (l.dropWhile p).length ≤ l.length := by
  induction l with
  | nil => simp
  | cons x xs ih =>
    by_cases h : p x
    · simp only [List.dropWhile_cons, h, if_pos, List.length_cons]
      omega
    · simp [List.dropWhile_cons, h]

theorem trimStart_idem (l : List Char) : trimStart (trimStart l) = trimStart l :=
  dropWhile_idem isWS l

theorem trimEnd_prefix_decomp (l : List Char) : ∃ s, l = trimEnd l ++ s := by
  obtain ⟨s, hs⟩ := dropWhile_suffix_decomp isWS l.reverse
  refine ⟨s.reverse, ?_⟩
  have := congrArg List.reverse hs
  simpa [trimEnd] using this

theorem trimEnd_idem (l : List Char) : trimEnd (trimEnd l) = trimEnd l := by
  simp [trimEnd, dropWhile_idem]

theorem trimStart_trimEnd_of_trimmed (l : List Char) (h : trimStart l = l) :
    trimStart (trimEnd l) = trimEnd l := by
  obtain ⟨s, hs⟩ := trimEnd_prefix_decomp l
  cases he : trimEnd l with
  | nil => rfl
  | cons x xs =>
    rw [he] at hs
    by_cases hx : isWS x
    · exfalso
      rw [hs] at h
      simp only [List.cons_append, trimStart, List.dropWhile_cons, hx, if_pos] at h
      have hlen := congrArg List.length h
      have hle := dropWhile_length_le isWS (xs ++ s)
      simp [List.length_append] at hlen hle
      omega
    · simp [trimStart, List.dropWhile_cons, hx]

theorem trim_idem (l : List Char) : trim (trim l) = trim l := by
  unfold trim
  rw [trimStart_trimEnd_of_trimmed (trimStart l) (trimStart_idem l), trimEnd_idem]

theorem trim_infix_decomp (l : List Char) : ∃ a b, l = a ++ trim l ++ b := by
  obtain ⟨a, ha⟩ := dropWhile_suffix_decomp isWS l
  obtain ⟨b, hb⟩ := trimEnd_prefix_decomp (l.dropWhile isWS)
  refine ⟨a, b, ?_⟩
  calc l = a ++ l.dropWhile isWS := ha
  _ = a ++ (trimEnd (l.dropWhile isWS) ++ b) := by rw [← hb]
  _ = a ++ trim l ++ b := by simp [trim, trimStart, List.append_assoc]

theorem splitOn_ne_nil (c : Char) (l : List Char) : splitOn c l ≠ [] := by
  induction l with
  | nil => simp [splitOn]
  | cons x xs ih =>
    by_cases h : x = c
    · simp [splitOn, h]
    · simp only [splitOn, if_neg h]
      cases hs : splitOn c xs with
      | nil => simp
      | cons p ps => simp

theorem splitOn_headI (c : Char) (l : List Char) :
    (splitOn c l).headI = l.takeWhile (fun a => a != c) := by
  induction l with
  | nil => rfl
  | cons x xs ih =>
    by_cases h : x = c
    · simp [splitOn, h, List.takeWhile_cons]
    · simp only [splitOn, if_neg h]
      cases hs : splitOn c xs with
      | nil => exact absurd hs (splitOn_ne_nil c xs)
      | cons p ps =>
        rw [hs] at ih
        simp only [List.headI] at ih ⊢
        simp [List.takeWhile_cons, h, ← ih]

theorem splitOn_head? (c : Char) (l : List Char) :
    (splitOn c l).head? = some ((splitOn c l).headI) := by
  cases hs : splitOn c l with
  | nil => exact absurd hs (splitOn_ne_nil c l)
  | cons p ps => rfl

theorem mem_splitOn_infix_decomp (c : Char) (l p : List Char)
    (h : p ∈ splitOn c l) : ∃ a b, l = a ++ p ++ b := by
  induction l generalizing p with
  | nil =>
    simp [splitOn] at h
    exact ⟨[], [], by simp [h]⟩
  | cons x xs ih =>
    by_cases hx : x = c
    · rw [splitOn, if_pos hx] at h
      rcases List.mem_cons.mp h with h1 | h2
      · exact ⟨[], x :: xs, by simp [h1]⟩
      · obtain ⟨a, b, hab⟩ := ih p h2
        exact ⟨x :: a, b, by simp [hab]⟩
    · rw [splitOn, if_neg hx] at h
      cases hs : splitOn c xs with
      | nil => exact absurd hs (splitOn_ne_nil c xs)
      | cons q qs =>
        rw [hs] at h
        rcases List.mem_cons.mp h with h1 | h2
        · have hq : q = xs.takeWhile (fun a => a != c) := by
            have := splitOn_headI c xs
            rw [hs] at this
            simpa [List.headI] using this
          refine ⟨[], xs.dropWhile (fun a => a != c), ?_⟩
          rw [h1, hq]
          simp [List.takeWhile_append_dropWhile]
        · obtain ⟨a, b, hab⟩ := ih p (hs ▸ List.mem_cons_of_mem q h2)
          exact ⟨x :: a, b, by simp [hab]⟩

theorem mem_collectFields (ps : List (List Char)) (s : List Char)
    (h : s ∈ collectFields ps) : ∃ p, p ∈ ps ∧ s = trim p ∧ trim p ≠ [] := by
  induction ps with
  | nil => simp [collectFields] at h
  | cons p ps ih =>
    by_cases hp : trim p = []
    · simp [collectFields, hp] at h
    · rw [collectFields] at h
      simp only [hp, if_neg] at h
      rcases List.mem_cons.mp h with h1 | h2
      · exact ⟨p, List.mem_cons_self p ps, h1, hp⟩
      · obtain ⟨q, hq, hsq, hnq⟩ := ih h2
        exact ⟨q, List.mem_cons_of_mem p hq, hsq, hnq⟩

theorem ucdLinesAll_eq_filter (ls : List (List Char)) :
    ucdLinesAll ls = ls.filter keepLine := by
  induction ls with
  | nil => rfl
  | cons l ls ih =>
    by_cases h : keepLine l
    · simp [ucdLinesAll, h, ih, List.filter_cons]
    · simp [ucdLinesAll, h, ih, List.filter_cons]

theorem ucdLinesAll_unfold_next (ls : List (List Char)) :
    ucdLinesAll ls =
      match UCDLines.next ls with
      | none => []
      | some (l, rest) => l :: ucdLinesAll rest := by
  induction ls with
  | nil => rfl
  | cons l ls ih =>
    by_cases h : keepLine l
    · simp [ucdLinesAll, UCDLines.next, h]
    · simpa [ucdLinesAll, UCDLines.next, h] using ih

theorem keepLine_iff (l : List Char) :
    keepLine l = true ↔ trimStart l ≠ [] ∧ (trimStart l).head? ≠ some '#' := by
  unfold keepLine
  cases h : trimStart l with
  | nil => simp
  | cons c cs => simp [bne_iff_ne]

/-- Claim C1: stop-at-first-empty truncation law.  For the significant
line `a ; ; b` the collected field list is exactly `["a"]` — the second
piece is empty after trimming, ends the iteration, and the non-empty
piece `b` is discarded; and for the line `A;B;` the trailing delimiter
contributes nothing after `["A", "B"]`. -/
theorem C1_stop_at_first_empty :
    fieldsOf ['a', ' ', ';', ' ', ';', ' ', 'b'] = [['a']] ∧
    fieldsOf ['A', ';', 'B', ';'] = [['A'], ['B']] := by
  constructor <;> rfl

/-- Claim C10: a significant line can yield zero fields.  The line
`" ; data"` is kept by the line filter, yet its field iterator stops at
once (the first piece is whitespace only), so it yields no field. -/
theorem C10_zero_fields :
    keepLine [' ', ';', ' ', 'd', 'a', 't', 'a'] = true ∧
    fieldsOf [' ', ';', ' ', 'd', 'a', 't', 'a'] = [] := by
  constructor <;> rfl

/-- Claim C2 counterexample: the Stopped state is NOT terminal.  For the
significant line `a;;b`, the first `next` yields `a`, the second call
meets the empty piece and returns nothing — yet the third `next` on the
same iterator returns `b`: a call made after a nothing-returning call
can return a value again, because the underlying split has advanced past
the empty piece. -/
theorem C2_counterexample :
    keepLine ['a', ';', ';', 'b'] = true ∧
    (UCDLineIter.next (UCDLine.intoIterBorrowed ['a', ';', ';', 'b'])).1 =
      some ['a'] ∧
    (UCDLineIter.next
      (UCDLineIter.next (UCDLine.intoIterBorrowed ['a', ';', ';', 'b'])).2).1 =
      none ∧
    (UCDLineIter.next
      (UCDLineIter.next
        (UCDLineIter.next (UCDLine.intoIterBorrowed ['a', ';', ';', 'b'])).2).2).1 =
      some ['b'] :=
  ⟨rfl, rfl, rfl, rfl⟩

/-- Claim C2 amended: only exhaustion of the underlying split is
terminal.  Every `next` call consumes exactly one split piece (the state
always advances to the tail), the exhausted iterator returns nothing and
stays exhausted, and a standard traversal — which stops at the first
nothing, as `collect` and `for` do — observes exactly the longest prefix
of trimmed pieces that contains no empty piece; everything from the
first empty-after-trim piece onward is discarded by such a traversal,
even though a further direct `next` call could still return a value. -/
theorem C2_amended_only_exhaustion_terminal :
    (∀ ps, (UCDLineIter.next ps).2 = ps.tail) ∧
    UCDLineIter.next [] = (none, []) ∧
    ∀ ps, collectFields ps = (ps.map trim).takeWhile (fun s => !s.isEmpty) := by
  refine ⟨?_, rfl, ?_⟩
  · intro ps
    cases ps with
    | nil => rfl
    | cons p ps =>
      simp only [UCDLineIter.next, List.tail_cons]
      split <;> rfl
  · intro ps
    induction ps with
    | nil => rfl
    | cons p ps ih =>
      by_cases h : trim p = []
      · simp [collectFields, h, List.takeWhile_cons]
      · simp [collectFields, h, List.takeWhile_cons, ih]

/-- Claim C3: every line yielded by the string-slice line filter is,
after trimming leading whitespace, non-empty and does not begin with the
comment marker. -/
theorem C3_yielded_lines_significant (t l : List Char)
    (h : l ∈ ucdLinesOfText t) :
    trimStart l ≠ [] ∧ (trimStart l).head? ≠ some '#' := by
  rw [ucdLinesOfText, ucdLinesAll_eq_filter] at h
  exact (keepLine_iff l).mp (List.mem_filter.mp h).2

theorem C3_witness :
    (['a'] ∈ ucdLinesOfText ['a']) ∧
    trimStart ['a'] ≠ [] ∧ (trimStart ['a']).head? ≠ some '#' :=
  ⟨by decide, C3_yielded_lines_significant ['a'] ['a'] (by decide)⟩

/-- Claim C4: every field yielded by the field iterator is non-empty and
is exactly its own whitespace-trim (no leading or trailing whitespace);
no empty field is ever produced. -/
theorem C4_fields_trimmed_nonempty (l s : List Char) (h : s ∈ fieldsOf l) :
    s ≠ [] ∧ trim s = s := by
  have h' : s ∈ collectFields (UCDLine.intoIterBorrowed l) := h
  obtain ⟨p, _, hsp, hne⟩ := mem_collectFields _ s h'
  subst hsp
  exact ⟨hne, trim_idem p⟩

theorem C4_witness :
    (['x'] ∈ fieldsOf ['x']) ∧ ['x'] ≠ ([] : List Char) ∧ trim ['x'] = ['x'] :=
  ⟨by decide, C4_fields_trimmed_nonempty ['x'] ['x'] (by decide)⟩

/-- Claim C5: comment stripping — for a significant line containing the
comment marker, every yielded field lies strictly before the line's
first marker: it is a contiguous substring of the longest marker-free
initial segment of the line, and contains no marker itself. -/
theorem C5_fields_before_comment (l s : List Char)
    (_hk : keepLine l = true) (_hm : '#' ∈ l) (h : s ∈ fieldsOf l) :
    (∃ a b, l.takeWhile (fun c => c != '#') = a ++ s ++ b) ∧ '#' ∉ s := by
  have h' : s ∈ collectFields (splitOn ';' ((splitOn '#' l).headI)) := h
  obtain ⟨p, hp, hsp, _⟩ := mem_collectFields _ s h'
  obtain ⟨a1, b1, hab1⟩ := mem_splitOn_infix_decomp ';' _ p hp
  obtain ⟨a2, b2, hab2⟩ := trim_infix_decomp p
  rw [← hsp] at hab2
  have hB : (splitOn '#' l).headI = l.takeWhile (fun c => c != '#') :=
    splitOn_headI '#' l
  have hdecomp : l.takeWhile (fun c => c != '#') = (a1 ++ a2) ++ s ++ (b2 ++ b1) := by
    rw [← hB, hab1, hab2]
    simp [List.append_assoc]
  refine ⟨⟨a1 ++ a2, b2 ++ b1, hdecomp⟩, ?_⟩
  intro hc
  have hmem : '#' ∈ l.takeWhile (fun c => c != '#') := by
    rw [hdecomp]
    simp only [List.mem_append]
    exact Or.inl (Or.inr hc)
  have := List.mem_takeWhile_imp hmem
  simp at this

theorem C5_witness :
    keepLine ['a', '#', 'c'] = true ∧ '#' ∈ ['a', '#', 'c'] ∧
    ['a'] ∈ fieldsOf ['a', '#', 'c'] ∧
    ((∃ a b, (['a', '#', 'c'].takeWhile fun c => c != '#') = a ++ ['a'] ++ b) ∧
      '#' ∉ ['a']) :=
  ⟨by decide, by decide, by decide,
    C5_fields_before_comment ['a', '#', 'c'] ['a'] (by decide) (by decide)
      (by decide)⟩

/-- Claim C6: partition property of the line filter — the yielded lines
are exactly the kept raw lines, unchanged and in order, and interleaving
the skipped lines back at their original positions (as recorded by the
per-line keep/skip flags) reconstructs the raw line sequence exactly. -/
theorem C6_partition (t : List Char) :
    ucdLinesOfText t = (strLines t).filter keepLine ∧
    recombine ((strLines t).map keepLine) ((strLines t).filter keepLine)
      ((strLines t).filter fun l => !keepLine l) = strLines t := by
  refine ⟨ucdLinesAll_eq_filter _, ?_⟩
  generalize strLines t = ls
  induction ls with
  | nil => rfl
  | cons l ls ih =>
    by_cases h : keepLine l
    · simp [List.filter_cons, List.map_cons, h, recombine, ih]
    · simp [List.filter_cons, List.map_cons, h, recombine, ih]

/-- Claim C7: the in-memory pipeline is infallible: the first piece of
the comment split always exists, so the `unwrap` after
`split of the comment marker, then next` never meets a `None`, and field
extraction always completes, returning exactly what the total field
function computes. -/
theorem C7_infallible (l : List Char) : fieldsOfOpt l = some (fieldsOf l) := by
  simp only [fieldsOfOpt, beforeCommentOpt, splitOn_head?, Option.map_some']
  rfl

/-- Claim C8: a per-line I/O failure is surfaced immediately: when the
remaining items are skippable `Ok` lines followed by an error, the
fallible filter's `next` returns exactly that error as its result, and
hands back the items after the error untouched — whatever they are, they
are not examined by that call. -/
theorem C8_error_surfaced (pre rest : List (Except Nat (List Char))) (e : Nat)
    (h : ∀ x ∈ pre, skippedOK x = true) :
    UCDLinesFallible.next (pre ++ Except.error e :: rest) =
      some (Except.error e, rest) := by
  induction pre with
  | nil => rfl
  | cons x pre ih =>
    have hx := h x (List.mem_cons_self x pre)
    cases x with
    | error e2 => simp [skippedOK] at hx
    | ok l =>
      have hl : keepLine l = false := by simpa [skippedOK] using hx
      have ih' := ih fun y hy => h y (List.mem_cons_of_mem _ hy)
      simpa [UCDLinesFallible.next, hl] using ih'

theorem C8_witness :
    (∀ x ∈ ([Except.ok ['#', 'c']] : List (Except Nat (List Char))),
      skippedOK x = true) ∧
    UCDLinesFallible.next ([Except.ok ['#', 'c']] ++ Except.error 7 :: [Except.ok ['z']]) =
      some (Except.error 7, [Except.ok ['z']]) :=
  ⟨by decide, C8_error_surfaced [Except.ok ['#', 'c']] [Except.ok ['z']] 7 (by decide)⟩

/-- Claim C9: the two source forms are interchangeable: on the same line
texts with no I/O errors, the fallible filter yields exactly the
infallible filter's lines (the same keep/skip decisions, `Ok`-wrapped,
in the same order), and the owned-string and borrowed-slice
`IntoIterator` forms build the identical split, so every line produces
the identical field sequence through either form. -/
theorem C9_two_forms_agree (ls : List (List Char)) (l : List Char) :
    ucdLinesFallibleAll (ls.map Except.ok) = (ucdLinesAll ls).map Except.ok ∧
    UCDLine.intoIterOwned l = UCDLine.intoIterBorrowed l ∧
    collectFields (UCDLine.intoIterOwned l) =
      collectFields (UCDLine.intoIterBorrowed l) := by
  refine ⟨?_, rfl, rfl⟩
  induction ls with
  | nil => rfl
  | cons x xs ih =>
    by_cases h : keepLine x
    · simp [ucdLinesFallibleAll, ucdLinesAll, h, ih]
    · simp [ucdLinesFallibleAll, ucdLinesAll, h, ih]

end ParseUCD
